import Mathlib

/-!
Verification of the encode-orc pixel-format codec, TBC line addressing and
signal-feature extraction routines.  The Python sources are shallowly
embedded: byte buffers become lists of naturals (each byte below 256),
10-bit samples are naturals masked with 1024, Python float arithmetic over
the small studio-range integers is modelled by exact rational arithmetic,
and Python `int()` truncation is modelled by truncation toward zero on ℚ.
-/

/-- One YUYV record: the four 16-bit words (Y0, Cb, Y1, Cr) emitted for a
horizontal pixel pair. -/
abbrev Rec4 : Type := ℕ × ℕ × ℕ × ℕ

/-- Indexing with a default value, mirroring guarded Python indexing. -/
def nthD {α : Type} : List α → ℕ → α → α
  | [], _, d => d
  | a :: _, 0, _ => a
  | _ :: t, n + 1, d => nthD t n d

/-- Concatenation of the lists produced for each element, mirroring the
append-in-a-loop pattern of the Python sources. -/
def concatMap {α β : Type} (f : α → List β) : List α → List β
  | [] => []
  | a :: t => f a ++ concatMap f t

/-- Bytes of a value packed by struct.pack as a little-endian 16-bit word. -/
def le16ToBytes (n : ℕ) : List ℕ := [n % 256, n / 256 % 256]

/-- Bytes of a value packed as a little-endian 32-bit word. -/
def le32ToBytes (n : ℕ) : List ℕ :=
  [n % 256, n / 256 % 256, n / 65536 % 256, n / 16777216 % 256]

/-- struct.unpack of a little-endian 16-bit word at byte offset i. -/
def le16At (d : List ℕ) (i : ℕ) : ℕ := nthD d i 0 + 256 * nthD d (i + 1) 0

/-- struct.unpack of a little-endian 32-bit word at byte offset i. -/
def le32At (d : List ℕ) (i : ℕ) : ℕ :=
  nthD d i 0 + 256 * nthD d (i + 1) 0 + 65536 * nthD d (i + 2) 0 +
    16777216 * nthD d (i + 3) 0

/-- Python int() on a rational: truncation toward zero. -/
def pytrunc (q : ℚ) : ℤ := if 0 ≤ q then ⌊q⌋ else -⌊-q⌋

/-! ## TbcAddressing: frame-line to field-line mapping
Embedded from src/archive/vits-investigation/verify_vits_lines.py. -/

/-- frame_line_to_field_line from verify_vits_lines.py: PAL frame line
(1-based, 1..625) and field number to 0-based field line, or None. -/
def frame_line_to_field_line (frame_line field_num : ℤ) : Option ℤ :=
  if frame_line < 1 ∨ frame_line > 625 then none
  else if frame_line ≤ 313 then
    (if field_num = 0 then some (frame_line - 1) else none)
  else
    (if field_num = 1 then some (frame_line - 314) else none)

/-! ## SignalFeatureExtractor: IRE conversion
Embedded from src/verify_ntsc_vits.py (sample_to_ire); Python float
arithmetic is modelled exactly over ℚ. -/

/-- sample_to_ire from verify_ntsc_vits.py.  sync_level is 0. -/
def sample_to_ire (sample blanking white : ℚ) : ℚ :=
  if sample ≤ blanking then
    (if blanking - 0 = 0 then 0 else (-43) * (blanking - sample) / (blanking - 0))
  else
    (if white - blanking = 0 then 0 else 100 * (sample - blanking) / (white - blanking))

/-! ## Colorimetry
Embedded from src/scripts/generate_pal_yuv422_colorbars.py; the float
matrix arithmetic is modelled exactly over ℚ. -/

/-- Clamp helper mirroring max(lo, min(hi, v)). -/
def clampInt (lo hi v : ℤ) : ℤ := max lo (min hi v)

/-- rgb_to_ycbcr_bt601 from generate_pal_yuv422_colorbars.py. -/
def rgb_to_ycbcr_bt601 (r10 g10 b10 : ℤ) : ℤ × ℤ × ℤ :=
  let rn : ℚ := ((r10 : ℚ) - 64) / (940 - 64)
  let gn : ℚ := ((g10 : ℚ) - 64) / (940 - 64)
  let bn : ℚ := ((b10 : ℚ) - 64) / (940 - 64)
  let yn : ℚ := (299 / 1000) * rn + (587 / 1000) * gn + (114 / 1000) * bn
  let cbn : ℚ := (-(168736 / 1000000)) * rn - (331264 / 1000000) * gn + (1 / 2) * bn
  let crn : ℚ := (1 / 2) * rn - (418688 / 1000000) * gn - (81312 / 1000000) * bn
  let y : ℤ := pytrunc (64 + yn * (940 - 64) + 1 / 2)
  let cb : ℤ := pytrunc (512 + cbn * (960 - 64) + 1 / 2)
  let cr : ℤ := pytrunc (512 + crn * (960 - 64) + 1 / 2)
  (clampInt 64 940 y, clampInt 64 960 cb, clampInt 64 960 cr)

/-- The colorimetry transform as the spec words it: normalize by
(v - 64)/(940 - 64), apply the fixed BT.601 matrix, re-quantize with
add-0.5-then-truncate rounding, clamp y to [64,940] and cb,cr to [64,960]. -/
def rgb_to_ycbcr_spec (r10 g10 b10 : ℤ) : ℤ × ℤ × ℤ :=
  let rn : ℚ := ((r10 : ℚ) - 64) / (940 - 64)
  let gn : ℚ := ((g10 : ℚ) - 64) / (940 - 64)
  let bn : ℚ := ((b10 : ℚ) - 64) / (940 - 64)
  let yn : ℚ := (299 / 1000) * rn + (587 / 1000) * gn + (114 / 1000) * bn
  let cbn : ℚ := (-(168736 / 1000000)) * rn - (331264 / 1000000) * gn + (1 / 2) * bn
  let crn : ℚ := (1 / 2) * rn - (418688 / 1000000) * gn - (81312 / 1000000) * bn
  (clampInt 64 940 (pytrunc (64 + yn * 876 + 1 / 2)),
   clampInt 64 960 (pytrunc (512 + cbn * 896 + 1 / 2)),
   clampInt 64 960 (pytrunc (512 + crn * 896 + 1 / 2)))

/-! ## Staircase analysis
Embedded from src/archive/vits-investigation/analyze_line19.py. -/

/-- Start sample of staircase sub-band k when the component has n samples. -/
def staircaseBandStart (n k : ℕ) : ℕ := k * (n / 6)

/-- End sample of staircase sub-band k (last band runs to the end). -/
def staircaseBandEnd (n k : ℕ) : ℕ := if k < 5 then (k + 1) * (n / 6) else n

/-- expected_level from analyze_line19.py: int(blanking + (white - blanking) * level / 5). -/
def expected_level (blanking white : ℤ) (k : ℕ) : ℤ :=
  pytrunc ((blanking : ℚ) + ((white : ℚ) - (blanking : ℚ)) * (k : ℚ) / 5)

/-! ## PixelFormatCodec: planar YUV422P10LE to packed YUYV10
Embedded from convert_yuv422p10le_to_yuyv10bit, identical in
src/scripts/convert_mov_to_yuv422_ntsc.py and
src/scripts/convert_mov_to_yuv422_pal.py. -/

/-- The Y plane slice: yuv_data[0:width*height*2]. -/
def yPlane (data : List ℕ) (w h : ℕ) : List ℕ := data.take (w * h * 2)

/-- The U plane slice: yuv_data[y_plane_size : y_plane_size + u_plane_size]. -/
def uPlane (data : List ℕ) (w h : ℕ) : List ℕ :=
  (data.drop (w * h * 2)).take (w / 2 * h * 2)

/-- The V plane slice, after the Y and U planes. -/
def vPlane (data : List ℕ) (w h : ℕ) : List ℕ :=
  (data.drop (w * h * 2 + w / 2 * h * 2)).take (w / 2 * h * 2)

/-- The bounds check guarding one pixel pair in
convert_yuv422p10le_to_yuyv10bit. -/
abbrev pairInBounds (data : List ℕ) (w h row col : ℕ) : Prop :=
  (row * w + col) * 2 + 2 ≤ (yPlane data w h).length ∧
    (row * w + col + 1) * 2 + 2 ≤ (yPlane data w h).length ∧
    (row * (w / 2) + col / 2) * 2 + 2 ≤ (uPlane data w h).length ∧
    (row * (w / 2) + col / 2) * 2 + 2 ≤ (vPlane data w h).length

/-- One YUYV record of convert_yuv422p10le_to_yuyv10bit: the extracted
(Y0, Cb, Y1, Cr) words masked to 10 bits, or the (512,512,512,512)
fallback when the bounds check fails. -/
def yuyvPair (data : List ℕ) (w h row col : ℕ) : Rec4 :=
  if pairInBounds data w h row col then
    (le16At (yPlane data w h) ((row * w + col) * 2) % 1024,
     le16At (uPlane data w h) ((row * (w / 2) + col / 2) * 2) % 1024,
     le16At (yPlane data w h) ((row * w + col + 1) * 2) % 1024,
     le16At (vPlane data w h) ((row * (w / 2) + col / 2) * 2) % 1024)
  else (512, 512, 512, 512)

/-- convert_yuv422p10le_to_yuyv10bit: row-major records, one per column
pair col = 0, 2, 4, ... below width. -/
def convert_yuv422p10le_to_yuyv10bit (data : List ℕ) (w h : ℕ) : List Rec4 :=
  concatMap
    (fun row => (List.range ((w + 1) / 2)).map (fun p => yuyvPair data w h row (2 * p)))
    (List.range h)

/-- The little-endian 16-bit words of a record list, as struct.pack
writes them. -/
def recordWords (t : Rec4) : List ℕ := [t.1, t.2.1, t.2.2.1, t.2.2.2]

/-- The byte stream of a YUYV record list. -/
def yuyvBytes (recs : List Rec4) : List ℕ :=
  concatMap (fun t => concatMap le16ToBytes (recordWords t)) recs

/-- Spec-side accessor: luma sample i of row r in a planar buffer,
masked to 10 bits. -/
def planarYat (data : List ℕ) (w r i : ℕ) : ℕ :=
  le16At data ((r * w + i) * 2) % 1024

/-- Spec-side accessor: Cb sample c of row r in a planar buffer. -/
def planarCbAt (data : List ℕ) (w h r c : ℕ) : ℕ :=
  le16At data (w * h * 2 + (r * (w / 2) + c) * 2) % 1024

/-- Spec-side accessor: Cr sample c of row r in a planar buffer. -/
def planarCrAt (data : List ℕ) (w h r c : ℕ) : ℕ :=
  le16At data (w * h * 2 + w / 2 * h * 2 + (r * (w / 2) + c) * 2) % 1024

/-! ## PixelFormatCodec: v210 to packed YUYV10
Embedded from convert_v210_to_yuyv10bit in
src/scripts/convert_mov_to_yuv422_pal.py. -/

/-- v210 line stride in bytes: ((width + 47) // 48) * 128. -/
def v210LineSize (w : ℕ) : ℕ := (w + 47) / 48 * 128

/-- The three YUYV records extracted from one 16-byte v210 group, in the
order the source emits them: (y0,cb0,y1,cr0), (y2,cb2,y3,cr2),
(y4,cb4,y5,cr4), each component masked to 10 bits. -/
def groupPairs (data : List ℕ) (off : ℕ) : List Rec4 :=
  [(le32At data off / 1024 % 1024, le32At data off % 1024,
    le32At data (off + 4) % 1024, le32At data off / 1048576 % 1024),
   (le32At data (off + 4) / 1048576 % 1024, le32At data (off + 4) / 1024 % 1024,
    le32At data (off + 8) / 1024 % 1024, le32At data (off + 8) % 1024),
   (le32At data (off + 12) % 1024, le32At data (off + 8) / 1048576 % 1024,
    le32At data (off + 12) / 1048576 % 1024, le32At data (off + 12) / 1024 % 1024)]

/-- The while loop of convert_v210_to_yuyv10bit for one row, with the
group count as structural fuel: while pairs remain and a full 16-byte
group is available, emit up to pairsLeft of the group records and
advance by 16 bytes; otherwise stop (partial trailing data emits
nothing). -/
def v210RowAux (data : List ℕ) (lineStart : ℕ) : ℕ → ℕ → ℕ → List Rec4
  | 0, _, _ => []
  | fuel + 1, pairsLeft, byteOff =>
    if lineStart + byteOff + 16 ≤ data.length then
      (groupPairs data (lineStart + byteOff)).take pairsLeft ++
        v210RowAux data lineStart fuel (pairsLeft - 3) (byteOff + 16)
    else []

/-- One row of convert_v210_to_yuyv10bit: ceil(width/2) pixel pairs are
wanted, consuming ceil(pairs/3) groups. -/
def v210Row (data : List ℕ) (lineStart pairs : ℕ) : List Rec4 :=
  v210RowAux data lineStart ((pairs + 2) / 3) pairs 0

/-- convert_v210_to_yuyv10bit from convert_mov_to_yuv422_pal.py. -/
def convert_v210_to_yuyv10bit (data : List ℕ) (w h : ℕ) : List Rec4 :=
  concatMap (fun row => v210Row data (row * v210LineSize w) ((w + 1) / 2)) (List.range h)

/-- Spec-side description of pixel pair c (0-based) of row r of a v210
frame: group c/3 of the row at the padded line stride, parsed as four
little-endian 32-bit words holding three 10-bit fields each at bit
offsets 0, 10, 20, pairs fed in the fixed v210 order. -/
def v210PairSpec (data : List ℕ) (w r c : ℕ) : Rec4 :=
  let base := r * v210LineSize w + 16 * (c / 3)
  match c % 3 with
  | 0 => (le32At data (base + 4 * 0) / 2 ^ 10 % 1024, le32At data (base + 4 * 0) / 2 ^ 0 % 1024,
          le32At data (base + 4 * 1) / 2 ^ 0 % 1024, le32At data (base + 4 * 0) / 2 ^ 20 % 1024)
  | 1 => (le32At data (base + 4 * 1) / 2 ^ 20 % 1024, le32At data (base + 4 * 1) / 2 ^ 10 % 1024,
          le32At data (base + 4 * 2) / 2 ^ 10 % 1024, le32At data (base + 4 * 2) / 2 ^ 0 % 1024)
  | _ => (le32At data (base + 4 * 3) / 2 ^ 0 % 1024, le32At data (base + 4 * 2) / 2 ^ 20 % 1024,
          le32At data (base + 4 * 3) / 2 ^ 20 % 1024, le32At data (base + 4 * 3) / 2 ^ 10 % 1024)

/-! ## PixelFormatCodec: width padding
Embedded from pad_to_target_width (ntsc script) and pad_to_720_width
(pal script). -/

/-- The 8 bytes of the neutral pixel pair struct.pack('<HHHH', 64, 512, 64, 512). -/
def neutralPairBytes : List ℕ :=
  le16ToBytes 64 ++ le16ToBytes 512 ++ le16ToBytes 64 ++ le16ToBytes 512

/-- n copies of the neutral pair, as bytes. -/
def repPairs (n : ℕ) : List ℕ := concatMap (fun _ => neutralPairBytes) (List.range n)

/-- pad_to_target_width from convert_mov_to_yuv422_ntsc.py. -/
def pad_to_target_width (data : List ℕ) (curW targetW h : ℕ) : List ℕ :=
  if targetW ≤ curW then data
  else
    concatMap
      (fun i =>
        repPairs ((targetW - curW) / 2 / 2) ++
          ((data.drop (i * (curW * 4))).take (curW * 4)) ++
          repPairs ((targetW - curW) / 2 - (targetW - curW) / 2 / 2))
      (List.range h)

/-- pad_to_720_width from convert_mov_to_yuv422_pal.py (fixed target 720,
line size written as (width // 2) * 8). -/
def pad_to_720_width (data : List ℕ) (w h : ℕ) : List ℕ :=
  if 720 ≤ w then data
  else
    concatMap
      (fun i =>
        repPairs ((720 - w) / 2 / 2) ++
          ((data.drop (i * (w / 2 * 8))).take (w / 2 * 8)) ++
          repPairs ((720 - w) / 2 - (720 - w) / 2 / 2))
      (List.range h)

/-! ## Planar frames and the v210 codec pair
The source only implements the packed-to-packed conversions; the planar
pack/unpack halves of the round trip of section 8 of the spec are
modelled from the spec (sections 4.1 and 6). -/

/-- A planar 4:2:2 frame: one list of 10-bit samples per component. -/
@[ext] structure Planar where
  y : List ℕ
  cb : List ℕ
  cr : List ℕ
deriving DecidableEq

/-- Well-formedness of a planar frame for a geometry: plane lengths
w*h and (w/2)*h, every sample 10-bit. -/
abbrev PlanarWF (p : Planar) (w h : ℕ) : Prop :=
  p.y.length = w * h ∧ p.cb.length = w / 2 * h ∧ p.cr.length = w / 2 * h ∧
    (∀ s ∈ p.y, s < 1024) ∧ (∀ s ∈ p.cb, s < 1024) ∧ (∀ s ∈ p.cr, s < 1024)

/-- Modelled from the spec: the four 32-bit words of v210 group g of row
r, each holding three 10-bit fields at bit offsets 0, 10, 20 in the
fixed order Cb0,Y0,Cr0 | Y1,Cb2,Y2 | Cr2,Y3,Cb4 | Y4,Cr4,Y5 (src has no
v210 packer; components past the frame width are zero padding). -/
def v210GroupWords (p : Planar) (w r g : ℕ) : List ℕ :=
  [nthD p.cb (r * (w / 2) + 3 * g) 0 + 1024 * nthD p.y (r * w + 6 * g) 0 +
     1048576 * nthD p.cr (r * (w / 2) + 3 * g) 0,
   nthD p.y (r * w + 6 * g + 1) 0 + 1024 * nthD p.cb (r * (w / 2) + 3 * g + 1) 0 +
     1048576 * nthD p.y (r * w + 6 * g + 2) 0,
   nthD p.cr (r * (w / 2) + 3 * g + 1) 0 + 1024 * nthD p.y (r * w + 6 * g + 3) 0 +
     1048576 * nthD p.cb (r * (w / 2) + 3 * g + 2) 0,
   nthD p.y (r * w + 6 * g + 4) 0 + 1024 * nthD p.cr (r * (w / 2) + 3 * g + 2) 0 +
     1048576 * nthD p.y (r * w + 6 * g + 5) 0]

/-- Modelled from the spec: pack_v210 — each row is 8 * ceil(w/48)
16-byte groups of four little-endian 32-bit words, padding the line to
the 128-byte stride boundary. -/
def pack_v210 (p : Planar) (w h : ℕ) : List ℕ :=
  concatMap
    (fun r =>
      concatMap (fun g => concatMap le32ToBytes (v210GroupWords p w r g))
        (List.range (8 * ((w + 47) / 48))))
    (List.range h)

/-- Word index (0..3) inside a v210 group holding luma slot k (k = i mod 6). -/
def v210YWordIdx (k : ℕ) : ℕ :=
  match k with | 0 => 0 | 1 => 1 | 2 => 1 | 3 => 2 | 4 => 3 | _ => 3

/-- Bit offset of luma slot k inside its word. -/
def v210YShift (k : ℕ) : ℕ :=
  match k with | 0 => 10 | 1 => 0 | 2 => 20 | 3 => 10 | 4 => 0 | _ => 20

/-- Word index inside a v210 group holding Cb slot t (t = j mod 3). -/
def v210CbWordIdx (t : ℕ) : ℕ := match t with | 0 => 0 | 1 => 1 | _ => 2

/-- Bit offset of Cb slot t inside its word. -/
def v210CbShift (t : ℕ) : ℕ := match t with | 0 => 0 | 1 => 10 | _ => 20

/-- Word index inside a v210 group holding Cr slot t (t = j mod 3). -/
def v210CrWordIdx (t : ℕ) : ℕ := match t with | 0 => 0 | 1 => 2 | _ => 3

/-- Bit offset of Cr slot t inside its word. -/
def v210CrShift (t : ℕ) : ℕ := match t with | 0 => 20 | 1 => 0 | _ => 10

/-- Modelled from the spec: unpack_v210(buffer, width, height) → Planar10
— walk the 16-byte groups of each row at the padded line stride, parse
four little-endian 32-bit words per group, take the twelve 10-bit
components from the fixed v210 positions, and keep exactly width luma
and width/2 chroma samples per row (src only unpacks v210 straight to
YUYV). -/
def unpack_v210 (data : List ℕ) (w h : ℕ) : Planar :=
  { y := (List.range (w * h)).map (fun idx =>
      le32At data (idx / w * v210LineSize w + (idx % w / 6 * 16 +
        v210YWordIdx (idx % w % 6) * 4)) / 2 ^ v210YShift (idx % w % 6) % 1024),
    cb := (List.range (w / 2 * h)).map (fun idx =>
      le32At data (idx / (w / 2) * v210LineSize w + (idx % (w / 2) / 3 * 16 +
        v210CbWordIdx (idx % (w / 2) % 3) * 4)) /
          2 ^ v210CbShift (idx % (w / 2) % 3) % 1024),
    cr := (List.range (w / 2 * h)).map (fun idx =>
      le32At data (idx / (w / 2) * v210LineSize w + (idx % (w / 2) / 3 * 16 +
        v210CrWordIdx (idx % (w / 2) % 3) * 4)) /
          2 ^ v210CrShift (idx % (w / 2) % 3) % 1024) }

/-- Modelled from the spec: the Planar10LE422 byte layout — the Y, Cb
and Cr planes in that order, each sample a little-endian 16-bit word. -/
def planarToBytes (p : Planar) : List ℕ :=
  concatMap le16ToBytes p.y ++ (concatMap le16ToBytes p.cb ++ concatMap le16ToBytes p.cr)

/-- Modelled from the spec: unpack_yuyv(buffer, width, height) → Planar10
— the inverse projection of pack_planar_to_yuyv: luma samples come from
words 0 and 2 of their pair record, each chroma sample from word 1 (Cb)
or 3 (Cr) of its record (src does not implement this inverse). -/
def unpack_yuyv (recs : List Rec4) (w h : ℕ) : Planar :=
  { y := (List.range (w * h)).map (fun idx =>
      if idx % w % 2 = 0 then
        (nthD recs (idx / w * (w / 2) + idx % w / 2) (0, 0, 0, 0)).1
      else
        (nthD recs (idx / w * (w / 2) + idx % w / 2) (0, 0, 0, 0)).2.2.1),
    cb := (List.range (w / 2 * h)).map (fun j => (nthD recs j (0, 0, 0, 0)).2.1),
    cr := (List.range (w / 2 * h)).map (fun j => (nthD recs j (0, 0, 0, 0)).2.2.2) }

/-! ## Generic list lemmas -/

@[simp] theorem nthD_nil {α : Type} (n : ℕ) (d : α) : nthD [] n d = d := rfl

@[simp] theorem nthD_cons_zero {α : Type} (a : α) (t : List α) (d : α) :
    nthD (a :: t) 0 d = a := rfl

@[simp] theorem nthD_cons_succ {α : Type} (a : α) (t : List α) (n : ℕ) (d : α) :
    nthD (a :: t) (n + 1) d = nthD t n d := rfl

@[simp] theorem concatMap_nil {α β : Type} (f : α → List β) : concatMap f [] = [] := rfl

@[simp] theorem concatMap_cons {α β : Type} (f : α → List β) (a : α) (t : List α) :
    concatMap f (a :: t) = f a ++ concatMap f t := rfl

theorem nthD_append_left {α : Type} (l m : List α) (n : ℕ) (d : α)
    (h : n < l.length) : nthD (l ++ m) n d = nthD l n d := by
  induction l generalizing n with
  | nil => simp at h
  | cons a t ih =>
    cases n with
    | zero => rfl
    | succ n =>
      have hn : n < t.length := by simpa using h
      simpa using ih n hn

theorem nthD_append_right {α : Type} (l m : List α) (n : ℕ) (d : α) :
    nthD (l ++ m) (l.length + n) d = nthD m n d := by
  induction l with
  | nil => simp
  | cons a t ih =>
    have h1 : (a :: t).length + n = t.length + n + 1 := by
      rw [List.length_cons]; omega
    rw [h1]
    simpa using ih

theorem nthD_eq_getElem {α : Type} (l : List α) (n : ℕ) (d : α)
    (h : n < l.length) : nthD l n d = l[n] := by
  induction l generalizing n with
  | nil => simp at h
  | cons a t ih =>
    cases n with
    | zero => rfl
    | succ n =>
      have hn : n < t.length := by simpa using h
      simpa using ih n hn

theorem nthD_range (h k : ℕ) (hk : k < h) : nthD (List.range h) k 0 = k := by
  rw [nthD_eq_getElem _ _ _ (by simpa using hk)]
  exact List.getElem_range k (by simpa using hk)

theorem nthD_map_range {β : Type} (f : ℕ → β) (n k : ℕ) (d : β) (hk : k < n) :
    nthD ((List.range n).map f) k d = f k := by
  rw [nthD_eq_getElem _ _ _ (by simpa using hk)]
  simp

theorem nthD_take {α : Type} (l : List α) (n i : ℕ) (d : α) :
    nthD (l.take n) i d = if i < n then nthD l i d else d := by
  induction l generalizing n i with
  | nil => by_cases h : i < n <;> simp [h]
  | cons a t ih =>
    cases n with
    | zero => simp
    | succ n =>
      cases i with
      | zero => simp
      | succ i =>
        rw [List.take_succ_cons]
        simpa [Nat.succ_lt_succ_iff] using ih n i

theorem nthD_drop {α : Type} (l : List α) (n i : ℕ) (d : α) :
    nthD (l.drop n) i d = nthD l (n + i) d := by
  induction l generalizing n with
  | nil => simp
  | cons a t ih =>
    cases n with
    | zero => simp
    | succ n =>
      have h1 : n + 1 + i = (n + i) + 1 := by omega
      rw [List.drop_succ_cons, h1]
      simpa using ih n

theorem take_length_append {α : Type} (l m : List α) : (l ++ m).take l.length = l := by
  induction l with
  | nil => simp
  | cons a t ih => simpa using ih

theorem drop_length_append_add {α : Type} (l m : List α) (n : ℕ) :
    (l ++ m).drop (l.length + n) = m.drop n := by
  induction l with
  | nil => simp
  | cons a t ih =>
    have h1 : (a :: t).length + n = t.length + n + 1 := by
      rw [List.length_cons]; omega
    rw [h1]
    simpa using ih

theorem concatMap_length {α β : Type} (f : α → List β) (L : ℕ) (l : List α)
    (hf : ∀ a ∈ l, (f a).length = L) : (concatMap f l).length = l.length * L := by
  induction l with
  | nil => simp
  | cons a t ih =>
    have ha : (f a).length = L := hf a (by simp)
    have ht : ∀ a ∈ t, (f a).length = L := fun x hx => hf x (by simp [hx])
    rw [concatMap_cons, List.length_append, ha, ih ht, List.length_cons]
    ring

theorem concatMap_nthD {α β : Type} (f : α → List β) (L : ℕ) (l : List α)
    (hf : ∀ a ∈ l, (f a).length = L) (k j : ℕ) (d : β) (a0 : α)
    (hk : k < l.length) (hj : j < L) :
    nthD (concatMap f l) (k * L + j) d = nthD (f (nthD l k a0)) j d := by
  induction l generalizing k with
  | nil => simp at hk
  | cons a t ih =>
    have ha : (f a).length = L := hf a (by simp)
    have ht : ∀ a ∈ t, (f a).length = L := fun x hx => hf x (by simp [hx])
    cases k with
    | zero =>
      rw [Nat.zero_mul, Nat.zero_add, concatMap_cons,
        nthD_append_left _ _ _ _ (by rw [ha]; exact hj), nthD_cons_zero]
    | succ k =>
      have h1 : (k + 1) * L + j = (f a).length + (k * L + j) := by rw [ha]; ring
      rw [concatMap_cons, h1, nthD_append_right, nthD_cons_succ]
      exact ih ht k (by simpa using hk)

theorem concatMap_slice {α β : Type} (f : α → List β) (L : ℕ) (l : List α)
    (hf : ∀ a ∈ l, (f a).length = L) (k : ℕ) (a0 : α) (hk : k < l.length) :
    ((concatMap f l).drop (k * L)).take L = f (nthD l k a0) := by
  induction l generalizing k with
  | nil => simp at hk
  | cons a t ih =>
    have ha : (f a).length = L := hf a (by simp)
    have ht : ∀ a ∈ t, (f a).length = L := fun x hx => hf x (by simp [hx])
    cases k with
    | zero =>
      rw [Nat.zero_mul, List.drop_zero, concatMap_cons, nthD_cons_zero, ← ha,
        take_length_append]
    | succ k =>
      have h1 : (k + 1) * L = (f a).length + k * L := by rw [ha]; ring
      rw [concatMap_cons, h1, drop_length_append_add, nthD_cons_succ]
      exact ih ht k (by simpa using hk)

theorem nthD_lt_bound {α : Type} [Preorder α] (l : List α) (n : ℕ) (d B : α)
    (hl : ∀ x ∈ l, x < B) (hd : d < B) : nthD l n d < B := by
  induction l generalizing n with
  | nil => simpa
  | cons a t ih =>
    cases n with
    | zero => exact hl a (by simp)
    | succ n => exact ih n (fun x hx => hl x (by simp [hx]))

/-! ## Lemmas on the planar to YUYV conversion -/

theorem le16At_take (l : List ℕ) (n i : ℕ) (h : i + 2 ≤ n) :
    le16At (l.take n) i = le16At l i := by
  rw [le16At, le16At, nthD_take, nthD_take, if_pos (by omega), if_pos (by omega)]

theorem le16At_drop (l : List ℕ) (n i : ℕ) : le16At (l.drop n) i = le16At l (n + i) := by
  have h1 : n + (i + 1) = n + i + 1 := by omega
  rw [le16At, le16At, nthD_drop, nthD_drop, h1]

theorem convert_planes_length (data : List ℕ) (w h : ℕ) (hw : w % 2 = 0)
    (hlen : 4 * (w * h) ≤ data.length) :
    (yPlane data w h).length = w * h * 2 ∧
      (uPlane data w h).length = w / 2 * h * 2 ∧
      (vPlane data w h).length = w / 2 * h * 2 := by
  have hB : w / 2 * h * 2 = w * h := by
    have hwh : w / 2 * 2 = w := by omega
    calc w / 2 * h * 2 = w / 2 * 2 * h := by ring
    _ = w * h := by rw [hwh]
  refine ⟨?_, ?_, ?_⟩
  · rw [yPlane, List.length_take]; omega
  · rw [uPlane, List.length_take, List.length_drop]; omega
  · rw [vPlane, List.length_take, List.length_drop]; omega

theorem convert_pair_eq (data : List ℕ) (w h r c : ℕ) (hw : w % 2 = 0)
    (hr : r < h) (hc : c < w / 2) (hlen : 4 * (w * h) ≤ data.length) :
    nthD (convert_yuv422p10le_to_yuyv10bit data w h) (r * (w / 2) + c) (0, 0, 0, 0) =
      (planarYat data w r (2 * c), planarCbAt data w h r c,
       planarYat data w r (2 * c + 1), planarCrAt data w h r c) := by
  have hw2 : (w + 1) / 2 = w / 2 := by omega
  obtain ⟨hyl, hul, hvl⟩ := convert_planes_length data w h hw hlen
  have hy0 : r * w + 2 * c + 1 < w * h := by
    have h2c : 2 * c + 2 ≤ w := by omega
    calc r * w + 2 * c + 1 < r * w + w := by omega
    _ = (r + 1) * w := by ring
    _ ≤ h * w := Nat.mul_le_mul_right w (by omega)
    _ = w * h := by ring
  have hcb : r * (w / 2) + c < w / 2 * h := by
    calc r * (w / 2) + c < r * (w / 2) + w / 2 := by omega
    _ = (r + 1) * (w / 2) := by ring
    _ ≤ h * (w / 2) := Nat.mul_le_mul_right (w / 2) (by omega)
    _ = w / 2 * h := by ring
  rw [convert_yuv422p10le_to_yuyv10bit,
    concatMap_nthD _ (w / 2) _ (fun a _ => by simp [hw2]) r c _ 0
      (by simpa using hr) hc,
    nthD_range h r hr, nthD_map_range _ _ _ _ (by omega)]
  have hcol2 : 2 * c / 2 = c := by omega
  have hg : pairInBounds data w h r (2 * c) := by
    refine ⟨?_, ?_, ?_, ?_⟩
    · rw [hyl]; omega
    · rw [hyl]; omega
    · rw [hul, hcol2]; omega
    · rw [hvl, hcol2]; omega
  rw [yuyvPair, if_pos hg, hcol2]
  have hyidx0 : (r * w + 2 * c) * 2 + 2 ≤ w * h * 2 := by omega
  have hyidx1 : (r * w + 2 * c + 1) * 2 + 2 ≤ w * h * 2 := by omega
  have hcidx : (r * (w / 2) + c) * 2 + 2 ≤ w / 2 * h * 2 := by omega
  simp only [Prod.mk.injEq]
  refine ⟨?_, ?_, ?_, ?_⟩
  · rw [planarYat, yPlane, le16At_take _ _ _ hyidx0]
  · rw [planarCbAt, uPlane, le16At_take _ _ _ hcidx, le16At_drop]
  · rw [planarYat, yPlane]
    have he : r * w + (2 * c + 1) = r * w + 2 * c + 1 := by omega
    rw [he, le16At_take _ _ _ hyidx1]
  · rw [planarCrAt, vPlane, le16At_take _ _ _ hcidx, le16At_drop]

theorem convert_length (data : List ℕ) (w h : ℕ) :
    (convert_yuv422p10le_to_yuyv10bit data w h).length = h * ((w + 1) / 2) := by
  rw [convert_yuv422p10le_to_yuyv10bit,
    concatMap_length _ ((w + 1) / 2) _ (fun a _ => by simp)]
  simp

theorem v210RowAux_nil (lineStart fuel pairsLeft byteOff : ℕ) :
    v210RowAux [] lineStart fuel pairsLeft byteOff = [] := by
  cases fuel with
  | zero => rfl
  | succ fuel => rw [v210RowAux, if_neg (by simp)]

theorem concatMap_eq_nil {α β : Type} (f : α → List β) (l : List α)
    (hf : ∀ a ∈ l, f a = []) : concatMap f l = [] := by
  induction l with
  | nil => rfl
  | cons a t ih =>
    rw [concatMap_cons, hf a (by simp), List.nil_append]
    exact ih fun x hx => hf x (by simp [hx])

/-! ## Theorems for the leaf claims -/

/-- C3 counterexample: frame line 626 lies inside the claimed valid range
[1, 2*lines_per_field] = [1, 626] for PAL, yet the code rejects it
(the second-field branch would have had to map it to field line 312). -/
theorem C3_counterexample :
    (1 ≤ (626 : ℤ) ∧ (626 : ℤ) ≤ 2 * 313) ∧
      frame_line_to_field_line 626 1 = none := by
  constructor
  · exact ⟨by norm_num, by norm_num⟩
  · simp [frame_line_to_field_line]

/-- C3 (amended): within 1..313 a frame line maps to field 0 at
frame_line - 1; within 314..625 it maps to field 1 at frame_line - 314;
frame lines below 1 or above 625 (not 626) are invalid. -/
theorem C3_frame_line_mapping (fl : ℤ) :
    (1 ≤ fl → fl ≤ 313 →
      frame_line_to_field_line fl 0 = some (fl - 1) ∧
        frame_line_to_field_line fl 1 = none) ∧
    (314 ≤ fl → fl ≤ 625 →
      frame_line_to_field_line fl 1 = some (fl - 314) ∧
        frame_line_to_field_line fl 0 = none) ∧
    ((fl < 1 ∨ 625 < fl) → ∀ fd : ℤ, frame_line_to_field_line fl fd = none) := by
  refine ⟨fun h1 h2 => ?_, fun h1 h2 => ?_, fun h fd => ?_⟩
  · constructor <;> simp [frame_line_to_field_line] <;> omega
  · constructor <;> rw [frame_line_to_field_line] <;>
      rw [if_neg (by omega), if_neg (by omega)] <;> simp
  · rw [frame_line_to_field_line, if_pos (by omega)]

/-- C3 witness: the four PAL reference lines 19, 20, 332, 333. -/
theorem C3_witness :
    frame_line_to_field_line 19 0 = some 18 ∧
      frame_line_to_field_line 20 0 = some 19 ∧
      frame_line_to_field_line 332 1 = some 18 ∧
      frame_line_to_field_line 333 1 = some 19 := by
  refine ⟨?_, ?_, ?_, ?_⟩
  · have h := (C3_frame_line_mapping 19).1 (by norm_num) (by norm_num)
    simpa using h.1
  · have h := (C3_frame_line_mapping 20).1 (by norm_num) (by norm_num)
    simpa using h.1
  · have h := (C3_frame_line_mapping 332).2.1 (by norm_num) (by norm_num)
    simpa using h.1
  · have h := (C3_frame_line_mapping 333).2.1 (by norm_num) (by norm_num)
    simpa using h.1

/-- C7 counterexample: with blanking_level = white_level = 5 the claim
demands sample_to_ire(white, blanking, white) = 100, but the code
returns 0 through its degenerate-range guard. -/
theorem C7_counterexample : sample_to_ire 5 5 5 = 0 ∧ (0 : ℚ) ≠ 100 := by
  constructor
  · simp [sample_to_ire]
  · norm_num

/-- C7 (amended): sample_to_ire(blanking, blanking, white) = 0 always;
sample_to_ire(white, blanking, white) = 100 whenever blanking < white;
below blanking the value is -43*(blanking - sample)/blanking (0 when
blanking = 0); above blanking it is 100*(sample - blanking)/(white -
blanking) (0 when the range is degenerate). -/
theorem C7_sample_to_ire (s b w : ℚ) :
    sample_to_ire b b w = 0 ∧
    (b < w → sample_to_ire w b w = 100) ∧
    (s ≤ b → b ≠ 0 → sample_to_ire s b w = -43 * (b - s) / b) ∧
    (s ≤ b → b = 0 → sample_to_ire s b w = 0) ∧
    (b < s → w - b ≠ 0 → sample_to_ire s b w = 100 * (s - b) / (w - b)) ∧
    (b < s → w = b → sample_to_ire s b w = 0) := by
  refine ⟨?_, fun hbw => ?_, fun hs hb => ?_, fun hs hb => ?_, fun hs hw => ?_,
    fun hs hw => ?_⟩
  · rcases eq_or_ne b 0 with hb | hb
    · simp [sample_to_ire, hb]
    · rw [sample_to_ire, if_pos le_rfl, if_neg (by simpa using hb)]
      ring
  · have hne : w - b ≠ 0 := fun h => absurd (by linarith : w ≤ b) (not_le.2 hbw)
    rw [sample_to_ire, if_neg (not_le.2 hbw), if_neg hne, mul_div_assoc,
      div_self hne, mul_one]
  · rw [sample_to_ire, if_pos hs, if_neg (by simpa using hb)]
    ring_nf
  · rw [sample_to_ire, if_pos hs, if_pos (by simpa using hb)]
  · rw [sample_to_ire, if_neg (not_le.2 hs), if_neg hw]
  · rw [sample_to_ire, if_neg (not_le.2 hs), if_pos (by rw [hw]; ring)]

/-- C7 witness: concrete evaluations through the amended theorem at
sample 1 and 3, blanking 2, white 3. -/
theorem C7_witness :
    sample_to_ire 3 2 3 = 100 ∧ sample_to_ire 1 2 3 = -43 * (2 - 1) / 2 := by
  constructor
  · exact (C7_sample_to_ire 3 2 3).2.1 (by norm_num)
  · exact (C7_sample_to_ire 1 2 3).2.2.1 (by norm_num) (by norm_num)

/-- C4: the colorimetry transform follows the spec pipeline (normalize,
BT.601 matrix, add-0.5-then-truncate re-quantization, clamp), and maps
studio white (940,940,940) to (940,512,512) and studio black (64,64,64)
to (64,512,512). -/
theorem C4_rgb_to_ycbcr :
    (∀ r g b : ℤ, rgb_to_ycbcr_bt601 r g b = rgb_to_ycbcr_spec r g b) ∧
    rgb_to_ycbcr_bt601 940 940 940 = (940, 512, 512) ∧
    rgb_to_ycbcr_bt601 64 64 64 = (64, 512, 512) := by
  refine ⟨fun r g b => by unfold rgb_to_ycbcr_bt601 rgb_to_ycbcr_spec; norm_num, ?_, ?_⟩
  · show (clampInt 64 940 (pytrunc _), clampInt 64 960 (pytrunc _),
      clampInt 64 960 (pytrunc _)) = (940, 512, 512)
    norm_num [pytrunc, clampInt]
  · show (clampInt 64 940 (pytrunc _), clampInt 64 960 (pytrunc _),
      clampInt 64 960 (pytrunc _)) = (64, 512, 512)
    norm_num [pytrunc, clampInt]

/-- C8: the staircase analysis gives the first five sub-bands width n/6
and the last band the remaining n - 5*(n/6) samples, consecutive bands
abut, and for blanking 0x4000 and white 0xD000 the expected level of
step k is within one LSB of 0x4000 + (0xD000 - 0x4000)*k/5. -/
theorem C8_staircase (n k : ℕ) (hk : k < 6) :
    (staircaseBandEnd n k - staircaseBandStart n k =
      if k < 5 then n / 6 else n - 5 * (n / 6)) ∧
    (k < 5 → staircaseBandStart n (k + 1) = staircaseBandEnd n k) ∧
    staircaseBandStart n 0 = 0 ∧ staircaseBandEnd n 5 = n ∧
    |(expected_level 16384 53248 k : ℚ) - (16384 + (53248 - 16384) * k / 5)| < 1 := by
  refine ⟨?_, fun h5 => ?_, ?_, ?_, ?_⟩
  · rcases Nat.lt_or_ge k 5 with h | h
    · rw [staircaseBandEnd, staircaseBandStart, if_pos h, if_pos h]
      have he : (k + 1) * (n / 6) = k * (n / 6) + n / 6 := by ring
      omega
    · have hk5 : k = 5 := by omega
      subst hk5
      simp [staircaseBandStart, staircaseBandEnd]
  · rw [staircaseBandStart, staircaseBandEnd, if_pos h5]
  · rw [staircaseBandStart]; ring
  · rw [staircaseBandEnd]; norm_num
  · interval_cases k <;>
      norm_num [expected_level, pytrunc, Int.floor_eq_iff, abs_lt]

/-- C8 witness: the last band of a 790-sample staircase component and the
top step expected level. -/
theorem C8_witness :
    (staircaseBandEnd 790 5 - staircaseBandStart 790 5 =
      if 5 < 5 then 790 / 6 else 790 - 5 * (790 / 6)) ∧
    ((5 : ℕ) < 5 → staircaseBandStart 790 6 = staircaseBandEnd 790 5) ∧
    staircaseBandStart 790 0 = 0 ∧ staircaseBandEnd 790 5 = 790 ∧
    |(expected_level 16384 53248 5 : ℚ) - (16384 + (53248 - 16384) * 5 / 5)| < 1 :=
  C8_staircase 790 5 (by norm_num)

/-- C2: with a buffer large enough for even width w and height h, record
(r, c) of the planar-to-YUYV conversion is exactly the four words
Y[r,2c], Cb[r,c], Y[r,2c+1], Cr[r,c] of the planar input, each masked to
10 bits; no interpolation across pairs. -/
theorem C2_planar_record (data : List ℕ) (w h r c : ℕ) (hw : w % 2 = 0) (hr : r < h)
    (hc : c < w / 2) (hlen : 4 * (w * h) ≤ data.length) :
    nthD (convert_yuv422p10le_to_yuyv10bit data w h) (r * (w / 2) + c) (0, 0, 0, 0) =
      (planarYat data w r (2 * c), planarCbAt data w h r c,
       planarYat data w r (2 * c + 1), planarCrAt data w h r c) :=
  convert_pair_eq data w h r c hw hr hc hlen

/-- C2 witness: a 2x1 frame with samples Y = 1, 2, Cb = 3, Cr = 4. -/
theorem C2_witness :
    nthD (convert_yuv422p10le_to_yuyv10bit [1, 0, 2, 0, 3, 0, 4, 0] 2 1)
        (0 * (2 / 2) + 0) (0, 0, 0, 0) =
      (planarYat [1, 0, 2, 0, 3, 0, 4, 0] 2 0 (2 * 0),
       planarCbAt [1, 0, 2, 0, 3, 0, 4, 0] 2 1 0 0,
       planarYat [1, 0, 2, 0, 3, 0, 4, 0] 2 0 (2 * 0 + 1),
       planarCrAt [1, 0, 2, 0, 3, 0, 4, 0] 2 1 0 0) :=
  C2_planar_record [1, 0, 2, 0, 3, 0, 4, 0] 2 1 0 0 (by decide) (by decide)
    (by decide) (by decide)

/-- C6 counterexample: on an empty buffer the planar conversion fills the
missing pixel pair with (512, 512, 512, 512), which is not the claimed
neutral pair (Y=64, Cb=Cr=512). -/
theorem C6_counterexample :
    convert_yuv422p10le_to_yuyv10bit [] 2 1 = [(512, 512, 512, 512)] ∧
      ((512, 512, 512, 512) : Rec4) ≠ (64, 512, 64, 512) := by
  constructor
  · decide
  · decide

/-- C6 (amended): a pixel pair whose samples lie beyond the available
planar data is filled with the mid-grey record (512, 512, 512, 512),
the output length is unaffected by the shortage, and the v210
conversion instead emits nothing for missing groups (an empty buffer
yields an empty output, with no fill). -/
theorem C6_short_input_fill (data : List ℕ) (w h r p : ℕ) (hr : r < h)
    (hp : p < (w + 1) / 2) (hob : ¬ pairInBounds data w h r (2 * p)) :
    nthD (convert_yuv422p10le_to_yuyv10bit data w h) (r * ((w + 1) / 2) + p) (0, 0, 0, 0)
        = (512, 512, 512, 512) ∧
      (convert_yuv422p10le_to_yuyv10bit data w h).length = h * ((w + 1) / 2) ∧
      ∀ w2 h2 : ℕ, convert_v210_to_yuyv10bit [] w2 h2 = [] := by
  refine ⟨?_, convert_length data w h, ?_⟩
  · rw [convert_yuv422p10le_to_yuyv10bit,
      concatMap_nthD _ ((w + 1) / 2) _ (fun a _ => by simp) r p _ 0
        (by simpa using hr) hp,
      nthD_range h r hr, nthD_map_range _ _ _ _ hp, yuyvPair, if_neg hob]
  · intro w2 h2
    rw [convert_v210_to_yuyv10bit]
    exact concatMap_eq_nil _ _ fun a _ => by rw [v210Row]; exact v210RowAux_nil _ _ _ _

/-- C6 witness: the empty buffer at geometry 2x1. -/
theorem C6_witness :
    nthD (convert_yuv422p10le_to_yuyv10bit [] 2 1) (0 * ((2 + 1) / 2) + 0) (0, 0, 0, 0)
        = (512, 512, 512, 512) ∧
      (convert_yuv422p10le_to_yuyv10bit [] 2 1).length = 1 * ((2 + 1) / 2) ∧
      ∀ w2 h2 : ℕ, convert_v210_to_yuyv10bit [] w2 h2 = [] :=
  C6_short_input_fill [] 2 1 0 0 (by decide) (by decide) (by decide)

/-- C10: for even width the planar-to-YUYV conversion always emits
h * (w/2) records, i.e. w*h*4 bytes, whatever the input buffer is. -/
theorem C10_output_size (data : List ℕ) (w h : ℕ) (hw : w % 2 = 0) :
    (convert_yuv422p10le_to_yuyv10bit data w h).length = h * (w / 2) ∧
      (yuyvBytes (convert_yuv422p10le_to_yuyv10bit data w h)).length = w * h * 4 := by
  have hw2 : (w + 1) / 2 = w / 2 := by omega
  have hl : (convert_yuv422p10le_to_yuyv10bit data w h).length = h * (w / 2) := by
    rw [convert_length, hw2]
  refine ⟨hl, ?_⟩
  rw [yuyvBytes, concatMap_length _ 8 _ (fun t _ => by rfl), hl]
  have hww : w / 2 * 2 = w := by omega
  calc h * (w / 2) * 8 = w / 2 * 2 * h * 4 := by ring
  _ = w * h * 4 := by rw [hww]

/-- C10 witness: the empty buffer at geometry 2x1 still yields 8 bytes. -/
theorem C10_witness :
    (convert_yuv422p10le_to_yuyv10bit [] 2 1).length = 1 * (2 / 2) ∧
      (yuyvBytes (convert_yuv422p10le_to_yuyv10bit [] 2 1)).length = 2 * 1 * 4 :=
  C10_output_size [] 2 1 (by decide)

/-! ## Lemmas for padding and the v210 row walk -/

theorem nthD_append_right_of_le {α : Type} (l m : List α) (n : ℕ) (d : α)
    (h : l.length ≤ n) : nthD (l ++ m) n d = nthD m (n - l.length) d := by
  induction l generalizing n with
  | nil => simp
  | cons a t ih =>
    cases n with
    | zero => simp at h
    | succ n =>
      have h1 : n + 1 - (a :: t).length = n - t.length := by
        rw [List.length_cons]; omega
      rw [h1]
      have h2 : t.length ≤ n := by
        have := h; rw [List.length_cons] at this; omega
      simpa using ih n h2

theorem repPairs_length (n : ℕ) : (repPairs n).length = n * 8 := by
  rw [repPairs, concatMap_length _ 8 _ (fun a _ => by decide)]
  simp

theorem v210RowAux_length (data : List ℕ) (lineStart : ℕ) :
    ∀ fuel pairsLeft byteOff, fuel = (pairsLeft + 2) / 3 →
      lineStart + byteOff + 16 * fuel ≤ data.length →
      (v210RowAux data lineStart fuel pairsLeft byteOff).length = pairsLeft := by
  intro fuel
  induction fuel with
  | zero =>
    intro p off hf _
    have hp : p = 0 := by omega
    subst hp
    rfl
  | succ fuel ih =>
    intro p off hf hb
    rw [v210RowAux, if_pos (by omega)]
    rw [List.length_append, List.length_take]
    have hgp : (groupPairs data (lineStart + off)).length = 3 := rfl
    rw [hgp, ih (p - 3) (off + 16) (by omega) (by omega)]
    omega

theorem v210RowAux_nthD (data : List ℕ) (lineStart : ℕ) :
    ∀ fuel pairsLeft byteOff q, fuel = (pairsLeft + 2) / 3 →
      lineStart + byteOff + 16 * fuel ≤ data.length → q < pairsLeft →
      nthD (v210RowAux data lineStart fuel pairsLeft byteOff) q (0, 0, 0, 0) =
        nthD (groupPairs data (lineStart + byteOff + 16 * (q / 3))) (q % 3)
          (0, 0, 0, 0) := by
  intro fuel
  induction fuel with
  | zero =>
    intro p off q hf _ hq
    have hp : p = 0 := by omega
    omega
  | succ fuel ih =>
    intro p off q hf hb hq
    rw [v210RowAux, if_pos (by omega)]
    have hgp : (groupPairs data (lineStart + off)).length = 3 := rfl
    rcases Nat.lt_or_ge q 3 with h3 | h3
    · rw [nthD_append_left _ _ _ _ (by rw [List.length_take, hgp]; omega),
        nthD_take, if_pos (by omega)]
      have hq0 : q / 3 = 0 := by omega
      have hqm : q % 3 = q := by omega
      have harith : lineStart + off + 16 * (q / 3) = lineStart + off := by
        rw [hq0]; omega
      rw [hqm, harith]
    · have hlt : ((groupPairs data (lineStart + off)).take p).length = 3 := by
        rw [List.length_take, hgp]; omega
      rw [nthD_append_right_of_le _ _ _ _ (by rw [hlt]; omega), hlt,
        ih (p - 3) (off + 16) (q - 3) (by omega) (by omega) (by omega)]
      have harith : lineStart + (off + 16) + 16 * ((q - 3) / 3) =
          lineStart + off + 16 * (q / 3) := by omega
      have hmod : (q - 3) % 3 = q % 3 := by omega
      rw [harith, hmod]

theorem v210_stride_groups (w : ℕ) : 16 * (((w + 1) / 2 + 2) / 3) ≤ v210LineSize w := by
  rw [v210LineSize]
  omega

theorem v210Row_length (data : List ℕ) (lineStart pairs : ℕ)
    (hb : lineStart + 16 * ((pairs + 2) / 3) ≤ data.length) :
    (v210Row data lineStart pairs).length = pairs := by
  rw [v210Row]
  exact v210RowAux_length data lineStart _ pairs 0 rfl (by omega)

/-- C5: for even widths W < T, each padded line is exactly
floor((T-W)/4) neutral pairs, then the original line, then the
remaining (T-W)/2 - floor((T-W)/4) neutral pairs; for W >= T the buffer
is returned unchanged; the pal pad_to_720_width is the ntsc padder at
target 720. -/
theorem C5_pad_width (data : List ℕ) (W T h : ℕ) (hW : W % 2 = 0) (hT : T % 2 = 0)
    (hlen : data.length = h * (W * 4)) :
    (W < T →
      (pad_to_target_width data W T h).length = h * (T * 4) ∧
      ∀ i, i < h →
        ((pad_to_target_width data W T h).drop (i * (T * 4))).take (T * 4) =
          repPairs ((T - W) / 4) ++ ((data.drop (i * (W * 4))).take (W * 4)) ++
            repPairs ((T - W) / 2 - (T - W) / 4)) ∧
    (T ≤ W → pad_to_target_width data W T h = data) ∧
    pad_to_720_width data W h = pad_to_target_width data W 720 h := by
  have h4 : (T - W) / 2 / 2 = (T - W) / 4 := by omega
  refine ⟨fun hWT => ?_, fun hTW => ?_, ?_⟩
  · have hLine : ∀ a ∈ List.range h,
        (repPairs ((T - W) / 2 / 2) ++
          ((data.drop (a * (W * 4))).take (W * 4)) ++
          repPairs ((T - W) / 2 - (T - W) / 2 / 2)).length = T * 4 := by
      intro a ha
      have hah : a < h := by simpa using ha
      have hslice : ((data.drop (a * (W * 4))).take (W * 4)).length = W * 4 := by
        rw [List.length_take, List.length_drop, hlen]
        have h1 : a * (W * 4) + W * 4 = (a + 1) * (W * 4) := by ring
        have h2 : (a + 1) * (W * 4) ≤ h * (W * 4) :=
          Nat.mul_le_mul_right _ (by omega)
        omega
      rw [List.length_append, List.length_append, hslice, repPairs_length,
        repPairs_length]
      omega
    constructor
    · rw [pad_to_target_width, if_neg (by omega),
        concatMap_length _ (T * 4) _ hLine]
      simp
    · intro i hi
      rw [pad_to_target_width, if_neg (by omega),
        concatMap_slice _ (T * 4) _ hLine i 0 (by simpa using hi),
        nthD_range h i hi, h4]
  · rw [pad_to_target_width, if_pos hTW]
  · rw [pad_to_720_width, pad_to_target_width]
    by_cases h720 : 720 ≤ W
    · rw [if_pos h720, if_pos h720]
    · rw [if_neg h720, if_neg h720]
      have hq : W / 2 * 8 = W * 4 := by omega
      congr 1
      funext i
      rw [hq]

/-- C5 witness: pad a 2-pixel line to 6 pixels (one pair left, one pair
right). -/
theorem C5_witness :
    (pad_to_target_width [1, 2, 3, 4, 5, 6, 7, 8] 2 6 1).length = 1 * (6 * 4) ∧
      ((pad_to_target_width [1, 2, 3, 4, 5, 6, 7, 8] 2 6 1).drop (0 * (6 * 4))).take (6 * 4) =
        repPairs ((6 - 2) / 4) ++
          (([1, 2, 3, 4, 5, 6, 7, 8].drop (0 * (2 * 4))).take (2 * 4)) ++
          repPairs ((6 - 2) / 2 - (6 - 2) / 4) := by
  have h :=
    (C5_pad_width [1, 2, 3, 4, 5, 6, 7, 8] 2 6 1 (by decide) (by decide) (by decide)).1
      (by decide)
  exact ⟨h.1, h.2 0 (by decide)⟩

/-- C1: with a full v210 frame buffer and even width, the unpacker emits
exactly h * (w/2) records, and record (r, c) comes from group c/3 of row
r at line stride ((w+47)/48)*128, whose four little-endian 32-bit words
yield the 10-bit fields at bit offsets 0, 10, 20 in the fixed v210
order, pairs (Y0,Cb0,Y1,Cr0), (Y2,Cb2,Y3,Cr2), (Y4,Cb4,Y5,Cr4); the row
stops at w pixels, discarding trailing components. -/
theorem C1_v210_unpack (data : List ℕ) (w h : ℕ) (hw : w % 2 = 0)
    (hlen : h * v210LineSize w ≤ data.length) :
    (convert_v210_to_yuyv10bit data w h).length = h * (w / 2) ∧
      ∀ r c, r < h → c < w / 2 →
        nthD (convert_v210_to_yuyv10bit data w h) (r * (w / 2) + c) (0, 0, 0, 0) =
          v210PairSpec data w r c := by
  have hw2 : (w + 1) / 2 = w / 2 := by omega
  have hrowb : ∀ r, r < h →
      r * v210LineSize w + 16 * (((w + 1) / 2 + 2) / 3) ≤ data.length := by
    intro r hr
    have h1 : 16 * (((w + 1) / 2 + 2) / 3) ≤ v210LineSize w := v210_stride_groups w
    have h2 : r * v210LineSize w + v210LineSize w = (r + 1) * v210LineSize w := by ring
    have h3 : (r + 1) * v210LineSize w ≤ h * v210LineSize w :=
      Nat.mul_le_mul_right _ (by omega)
    omega
  have hrl : ∀ a ∈ List.range h,
      (v210Row data (a * v210LineSize w) ((w + 1) / 2)).length = w / 2 := by
    intro a ha
    rw [v210Row_length data _ _ (by have := hrowb a (by simpa using ha); omega), hw2]
  constructor
  · rw [convert_v210_to_yuyv10bit, concatMap_length _ (w / 2) _ hrl]
    simp
  · intro r c hr hc
    rw [convert_v210_to_yuyv10bit,
      concatMap_nthD _ (w / 2) _ hrl r c _ 0 (by simpa using hr) hc,
      nthD_range h r hr, v210Row,
      v210RowAux_nthD data _ _ _ 0 c rfl (by have := hrowb r hr; omega) (by omega)]
    have harith : r * v210LineSize w + 0 + 16 * (c / 3) =
        r * v210LineSize w + 16 * (c / 3) := by omega
    rw [harith]
    simp only [v210PairSpec]
    rcases (show c % 3 = 0 ∨ c % 3 = 1 ∨ c % 3 = 2 by omega) with h3 | h3 | h3 <;>
      rw [h3] <;> simp [groupPairs]

/-- C1 witness: a 2x1 frame inside one full 128-byte v210 line of byte
value 7 everywhere. -/
theorem C1_witness :
    (convert_v210_to_yuyv10bit (List.replicate 128 7) 2 1).length = 1 * (2 / 2) ∧
      nthD (convert_v210_to_yuyv10bit (List.replicate 128 7) 2 1)
          (0 * (2 / 2) + 0) (0, 0, 0, 0) =
        v210PairSpec (List.replicate 128 7) 2 0 0 := by
  have h := C1_v210_unpack (List.replicate 128 7) 2 1 (by decide)
    (by rw [List.length_replicate]; norm_num [v210LineSize])
  exact ⟨h.1, h.2 0 0 (by decide) (by decide)⟩

/-! ## Lemmas for the v210 pack/unpack round trip -/

theorem le32ToBytes_length (n : ℕ) : (le32ToBytes n).length = 4 := rfl

theorem groupBytes_length (p : Planar) (w r g : ℕ) :
    (concatMap le32ToBytes (v210GroupWords p w r g)).length = 16 := by
  rw [concatMap_length le32ToBytes 4 _ (fun a _ => le32ToBytes_length a)]
  rfl

theorem rowBytes_length (p : Planar) (w r : ℕ) :
    (concatMap (fun g => concatMap le32ToBytes (v210GroupWords p w r g))
      (List.range (8 * ((w + 47) / 48)))).length = v210LineSize w := by
  rw [concatMap_length _ 16 _ (fun a _ => groupBytes_length p w r a),
    List.length_range, v210LineSize]
  omega

theorem pack_v210_byte (p : Planar) (w h r g wi b : ℕ) (hr : r < h)
    (hg : g < 8 * ((w + 47) / 48)) (hwi : wi < 4) (hb : b < 4) :
    nthD (pack_v210 p w h) (r * v210LineSize w + (g * 16 + (wi * 4 + b))) 0 =
      nthD (le32ToBytes (nthD (v210GroupWords p w r g) wi 0)) b 0 := by
  rw [pack_v210,
    concatMap_nthD _ (v210LineSize w) _ (fun a _ => rowBytes_length p w a) r
      (g * 16 + (wi * 4 + b)) _ 0 (by simpa using hr)
      (by rw [v210LineSize]; omega),
    nthD_range h r hr,
    concatMap_nthD _ 16 _ (fun a _ => groupBytes_length p w r a) g (wi * 4 + b) _ 0
      (by simpa using hg) (by omega),
    nthD_range _ g hg,
    concatMap_nthD le32ToBytes 4 _ (fun a _ => le32ToBytes_length a) wi b _ 0
      (by simpa [v210GroupWords] using hwi) (by omega)]

theorem pack_v210_word (p : Planar) (w h r g wi : ℕ) (hr : r < h)
    (hg : g < 8 * ((w + 47) / 48)) (hwi : wi < 4) :
    le32At (pack_v210 p w h) (r * v210LineSize w + (g * 16 + wi * 4)) =
      nthD (v210GroupWords p w r g) wi 0 % 4294967296 := by
  rw [le32At]
  have e3 : r * v210LineSize w + (g * 16 + wi * 4) + 3 =
      r * v210LineSize w + (g * 16 + (wi * 4 + 3)) := by omega
  have e2 : r * v210LineSize w + (g * 16 + wi * 4) + 2 =
      r * v210LineSize w + (g * 16 + (wi * 4 + 2)) := by omega
  have e1 : r * v210LineSize w + (g * 16 + wi * 4) + 1 =
      r * v210LineSize w + (g * 16 + (wi * 4 + 1)) := by omega
  have e0 : r * v210LineSize w + (g * 16 + wi * 4) =
      r * v210LineSize w + (g * 16 + (wi * 4 + 0)) := by omega
  rw [e3, e2, e1, e0,
    pack_v210_byte p w h r g wi 0 hr hg hwi (by norm_num),
    pack_v210_byte p w h r g wi 1 hr hg hwi (by norm_num),
    pack_v210_byte p w h r g wi 2 hr hg hwi (by norm_num),
    pack_v210_byte p w h r g wi 3 hr hg hwi (by norm_num)]
  simp [le32ToBytes]
  omega

theorem pack3_fields (a b c : ℕ) (ha : a < 1024) (hb : b < 1024) (hc : c < 1024) :
    (a + 1024 * b + 1048576 * c) % 1024 = a ∧
      (a + 1024 * b + 1048576 * c) / 2 ^ 10 % 1024 = b ∧
      (a + 1024 * b + 1048576 * c) / 2 ^ 20 % 1024 = c := by
  have h10 : (2 : ℕ) ^ 10 = 1024 := by norm_num
  have h20 : (2 : ℕ) ^ 20 = 1048576 := by norm_num
  rw [h10, h20]
  omega

theorem v210YWordIdx_lt (k : ℕ) : v210YWordIdx k < 4 := by
  rcases k with _ | _ | _ | _ | _ | k <;> simp [v210YWordIdx]

theorem v210CbWordIdx_lt (t : ℕ) : v210CbWordIdx t < 4 := by
  rcases t with _ | _ | t <;> simp [v210CbWordIdx]

theorem v210CrWordIdx_lt (t : ℕ) : v210CrWordIdx t < 4 := by
  rcases t with _ | _ | t <;> simp [v210CrWordIdx]

theorem planar_comp_lt (l : List ℕ) (hb : ∀ s ∈ l, s < 1024) (n : ℕ) :
    nthD l n 0 < 1024 :=
  nthD_lt_bound l n 0 1024 hb (by norm_num)

theorem v210GroupWords_lt (p : Planar) (w r g wi : ℕ)
    (hyb : ∀ s ∈ p.y, s < 1024) (hcbb : ∀ s ∈ p.cb, s < 1024)
    (hcrb : ∀ s ∈ p.cr, s < 1024) :
    nthD (v210GroupWords p w r g) wi 0 < 4294967296 := by
  have h1 := planar_comp_lt p.y hyb
  have h2 := planar_comp_lt p.cb hcbb
  have h3 := planar_comp_lt p.cr hcrb
  rcases wi with _ | _ | _ | _ | wi
  · simp only [v210GroupWords, nthD_cons_zero]
    have := h2 (r * (w / 2) + 3 * g)
    have := h1 (r * w + 6 * g)
    have := h3 (r * (w / 2) + 3 * g)
    omega
  · simp only [v210GroupWords, nthD_cons_succ, nthD_cons_zero]
    have := h1 (r * w + 6 * g + 1)
    have := h2 (r * (w / 2) + 3 * g + 1)
    have := h1 (r * w + 6 * g + 2)
    omega
  · simp only [v210GroupWords, nthD_cons_succ, nthD_cons_zero]
    have := h3 (r * (w / 2) + 3 * g + 1)
    have := h1 (r * w + 6 * g + 3)
    have := h2 (r * (w / 2) + 3 * g + 2)
    omega
  · simp only [v210GroupWords, nthD_cons_succ, nthD_cons_zero]
    have := h1 (r * w + 6 * g + 4)
    have := h3 (r * (w / 2) + 3 * g + 2)
    have := h1 (r * w + 6 * g + 5)
    omega
  · simp [v210GroupWords, nthD]

theorem pack_v210_word_exact (p : Planar) (w h r g wi : ℕ) (hr : r < h)
    (hg : g < 8 * ((w + 47) / 48)) (hwi : wi < 4)
    (hyb : ∀ s ∈ p.y, s < 1024) (hcbb : ∀ s ∈ p.cb, s < 1024)
    (hcrb : ∀ s ∈ p.cr, s < 1024) :
    le32At (pack_v210 p w h) (r * v210LineSize w + (g * 16 + wi * 4)) =
      nthD (v210GroupWords p w r g) wi 0 := by
  rw [pack_v210_word p w h r g wi hr hg hwi,
    Nat.mod_eq_of_lt (v210GroupWords_lt p w r g wi hyb hcbb hcrb)]

theorem groupWord0 (p : Planar) (w r g : ℕ) :
    nthD (v210GroupWords p w r g) 0 0 =
      nthD p.cb (r * (w / 2) + 3 * g) 0 + 1024 * nthD p.y (r * w + 6 * g) 0 +
        1048576 * nthD p.cr (r * (w / 2) + 3 * g) 0 := rfl

theorem groupWord1 (p : Planar) (w r g : ℕ) :
    nthD (v210GroupWords p w r g) 1 0 =
      nthD p.y (r * w + 6 * g + 1) 0 + 1024 * nthD p.cb (r * (w / 2) + 3 * g + 1) 0 +
        1048576 * nthD p.y (r * w + 6 * g + 2) 0 := rfl

theorem groupWord2 (p : Planar) (w r g : ℕ) :
    nthD (v210GroupWords p w r g) 2 0 =
      nthD p.cr (r * (w / 2) + 3 * g + 1) 0 + 1024 * nthD p.y (r * w + 6 * g + 3) 0 +
        1048576 * nthD p.cb (r * (w / 2) + 3 * g + 2) 0 := rfl

theorem groupWord3 (p : Planar) (w r g : ℕ) :
    nthD (v210GroupWords p w r g) 3 0 =
      nthD p.y (r * w + 6 * g + 4) 0 + 1024 * nthD p.cr (r * (w / 2) + 3 * g + 2) 0 +
        1048576 * nthD p.y (r * w + 6 * g + 5) 0 := rfl

theorem unpack_pack_y (p : Planar) (w h idx : ℕ)
    (hyb : ∀ s ∈ p.y, s < 1024) (hcbb : ∀ s ∈ p.cb, s < 1024)
    (hcrb : ∀ s ∈ p.cr, s < 1024) (hidx : idx < w * h) :
    le32At (pack_v210 p w h) (idx / w * v210LineSize w + (idx % w / 6 * 16 +
        v210YWordIdx (idx % w % 6) * 4)) / 2 ^ v210YShift (idx % w % 6) % 1024 =
      nthD p.y idx 0 := by
  have hw0 : 0 < w := by
    rcases Nat.eq_zero_or_pos w with h0 | h0
    · subst h0; simp at hidx
    · exact h0
  have hr : idx / w < h := Nat.div_lt_of_lt_mul hidx
  have hi : idx % w < w := Nat.mod_lt idx hw0
  have hg : idx % w / 6 < 8 * ((w + 47) / 48) := by omega
  have hy := planar_comp_lt p.y hyb
  have hcb := planar_comp_lt p.cb hcbb
  have hcr := planar_comp_lt p.cr hcrb
  have hdm : idx / w * w + idx % w = idx := Nat.div_add_mod' idx w
  rcases (show idx % w % 6 = 0 ∨ idx % w % 6 = 1 ∨ idx % w % 6 = 2 ∨
      idx % w % 6 = 3 ∨ idx % w % 6 = 4 ∨ idx % w % 6 = 5 by omega) with
    hk | hk | hk | hk | hk | hk
  · rw [hk, show v210YWordIdx 0 = 0 from rfl, show v210YShift 0 = 10 from rfl,
      pack_v210_word_exact p w h (idx / w) (idx % w / 6) 0 hr hg (by norm_num)
        hyb hcbb hcrb,
      groupWord0, (pack3_fields _ _ _ (hcb _) (hy _) (hcr _)).2.1,
      show idx / w * w + 6 * (idx % w / 6) = idx from by omega]
  · rw [hk, show v210YWordIdx 1 = 1 from rfl, show v210YShift 1 = 0 from rfl,
      pack_v210_word_exact p w h (idx / w) (idx % w / 6) 1 hr hg (by norm_num)
        hyb hcbb hcrb,
      groupWord1, pow_zero, Nat.div_one,
      (pack3_fields _ _ _ (hy _) (hcb _) (hy _)).1,
      show idx / w * w + 6 * (idx % w / 6) + 1 = idx from by omega]
  · rw [hk, show v210YWordIdx 2 = 1 from rfl, show v210YShift 2 = 20 from rfl,
      pack_v210_word_exact p w h (idx / w) (idx % w / 6) 1 hr hg (by norm_num)
        hyb hcbb hcrb,
      groupWord1, (pack3_fields _ _ _ (hy _) (hcb _) (hy _)).2.2,
      show idx / w * w + 6 * (idx % w / 6) + 2 = idx from by omega]
  · rw [hk, show v210YWordIdx 3 = 2 from rfl, show v210YShift 3 = 10 from rfl,
      pack_v210_word_exact p w h (idx / w) (idx % w / 6) 2 hr hg (by norm_num)
        hyb hcbb hcrb,
      groupWord2, (pack3_fields _ _ _ (hcr _) (hy _) (hcb _)).2.1,
      show idx / w * w + 6 * (idx % w / 6) + 3 = idx from by omega]
  · rw [hk, show v210YWordIdx 4 = 3 from rfl, show v210YShift 4 = 0 from rfl,
      pack_v210_word_exact p w h (idx / w) (idx % w / 6) 3 hr hg (by norm_num)
        hyb hcbb hcrb,
      groupWord3, pow_zero, Nat.div_one,
      (pack3_fields _ _ _ (hy _) (hcr _) (hy _)).1,
      show idx / w * w + 6 * (idx % w / 6) + 4 = idx from by omega]
  · rw [hk, show v210YWordIdx 5 = 3 from rfl, show v210YShift 5 = 20 from rfl,
      pack_v210_word_exact p w h (idx / w) (idx % w / 6) 3 hr hg (by norm_num)
        hyb hcbb hcrb,
      groupWord3, (pack3_fields _ _ _ (hy _) (hcr _) (hy _)).2.2,
      show idx / w * w + 6 * (idx % w / 6) + 5 = idx from by omega]

theorem unpack_pack_cb (p : Planar) (w h idx : ℕ)
    (hyb : ∀ s ∈ p.y, s < 1024) (hcbb : ∀ s ∈ p.cb, s < 1024)
    (hcrb : ∀ s ∈ p.cr, s < 1024) (hidx : idx < w / 2 * h) :
    le32At (pack_v210 p w h) (idx / (w / 2) * v210LineSize w +
        (idx % (w / 2) / 3 * 16 + v210CbWordIdx (idx % (w / 2) % 3) * 4)) /
          2 ^ v210CbShift (idx % (w / 2) % 3) % 1024 =
      nthD p.cb idx 0 := by
  have hw20 : 0 < w / 2 := by
    rcases Nat.eq_zero_or_pos (w / 2) with h0 | h0
    · rw [h0] at hidx; simp at hidx
    · exact h0
  have hr : idx / (w / 2) < h := Nat.div_lt_of_lt_mul hidx
  have hj : idx % (w / 2) < w / 2 := Nat.mod_lt idx hw20
  have hg : idx % (w / 2) / 3 < 8 * ((w + 47) / 48) := by omega
  have hy := planar_comp_lt p.y hyb
  have hcb := planar_comp_lt p.cb hcbb
  have hcr := planar_comp_lt p.cr hcrb
  have hdm : idx / (w / 2) * (w / 2) + idx % (w / 2) = idx :=
    Nat.div_add_mod' idx (w / 2)
  rcases (show idx % (w / 2) % 3 = 0 ∨ idx % (w / 2) % 3 = 1 ∨
      idx % (w / 2) % 3 = 2 by omega) with hk | hk | hk
  · rw [hk, show v210CbWordIdx 0 = 0 from rfl, show v210CbShift 0 = 0 from rfl,
      pack_v210_word_exact p w h (idx / (w / 2)) (idx % (w / 2) / 3) 0 hr hg
        (by norm_num) hyb hcbb hcrb,
      groupWord0, pow_zero, Nat.div_one,
      (pack3_fields _ _ _ (hcb _) (hy _) (hcr _)).1,
      show idx / (w / 2) * (w / 2) + 3 * (idx % (w / 2) / 3) = idx from by omega]
  · rw [hk, show v210CbWordIdx 1 = 1 from rfl, show v210CbShift 1 = 10 from rfl,
      pack_v210_word_exact p w h (idx / (w / 2)) (idx % (w / 2) / 3) 1 hr hg
        (by norm_num) hyb hcbb hcrb,
      groupWord1, (pack3_fields _ _ _ (hy _) (hcb _) (hy _)).2.1,
      show idx / (w / 2) * (w / 2) + 3 * (idx % (w / 2) / 3) + 1 = idx from by omega]
  · rw [hk, show v210CbWordIdx 2 = 2 from rfl, show v210CbShift 2 = 20 from rfl,
      pack_v210_word_exact p w h (idx / (w / 2)) (idx % (w / 2) / 3) 2 hr hg
        (by norm_num) hyb hcbb hcrb,
      groupWord2, (pack3_fields _ _ _ (hcr _) (hy _) (hcb _)).2.2,
      show idx / (w / 2) * (w / 2) + 3 * (idx % (w / 2) / 3) + 2 = idx from by omega]

theorem unpack_pack_cr (p : Planar) (w h idx : ℕ)
    (hyb : ∀ s ∈ p.y, s < 1024) (hcbb : ∀ s ∈ p.cb, s < 1024)
    (hcrb : ∀ s ∈ p.cr, s < 1024) (hidx : idx < w / 2 * h) :
    le32At (pack_v210 p w h) (idx / (w / 2) * v210LineSize w +
        (idx % (w / 2) / 3 * 16 + v210CrWordIdx (idx % (w / 2) % 3) * 4)) /
          2 ^ v210CrShift (idx % (w / 2) % 3) % 1024 =
      nthD p.cr idx 0 := by
  have hw20 : 0 < w / 2 := by
    rcases Nat.eq_zero_or_pos (w / 2) with h0 | h0
    · rw [h0] at hidx; simp at hidx
    · exact h0
  have hr : idx / (w / 2) < h := Nat.div_lt_of_lt_mul hidx
  have hj : idx % (w / 2) < w / 2 := Nat.mod_lt idx hw20
  have hg : idx % (w / 2) / 3 < 8 * ((w + 47) / 48) := by omega
  have hy := planar_comp_lt p.y hyb
  have hcb := planar_comp_lt p.cb hcbb
  have hcr := planar_comp_lt p.cr hcrb
  have hdm : idx / (w / 2) * (w / 2) + idx % (w / 2) = idx :=
    Nat.div_add_mod' idx (w / 2)
  rcases (show idx % (w / 2) % 3 = 0 ∨ idx % (w / 2) % 3 = 1 ∨
      idx % (w / 2) % 3 = 2 by omega) with hk | hk | hk
  · rw [hk, show v210CrWordIdx 0 = 0 from rfl, show v210CrShift 0 = 20 from rfl,
      pack_v210_word_exact p w h (idx / (w / 2)) (idx % (w / 2) / 3) 0 hr hg
        (by norm_num) hyb hcbb hcrb,
      groupWord0, (pack3_fields _ _ _ (hcb _) (hy _) (hcr _)).2.2,
      show idx / (w / 2) * (w / 2) + 3 * (idx % (w / 2) / 3) = idx from by omega]
  · rw [hk, show v210CrWordIdx 1 = 2 from rfl, show v210CrShift 1 = 0 from rfl,
      pack_v210_word_exact p w h (idx / (w / 2)) (idx % (w / 2) / 3) 2 hr hg
        (by norm_num) hyb hcbb hcrb,
      groupWord2, pow_zero, Nat.div_one,
      (pack3_fields _ _ _ (hcr _) (hy _) (hcb _)).1,
      show idx / (w / 2) * (w / 2) + 3 * (idx % (w / 2) / 3) + 1 = idx from by omega]
  · rw [hk, show v210CrWordIdx 2 = 3 from rfl, show v210CrShift 2 = 10 from rfl,
      pack_v210_word_exact p w h (idx / (w / 2)) (idx % (w / 2) / 3) 3 hr hg
        (by norm_num) hyb hcbb hcrb,
      groupWord3, (pack3_fields _ _ _ (hy _) (hcr _) (hy _)).2.1,
      show idx / (w / 2) * (w / 2) + 3 * (idx % (w / 2) / 3) + 2 = idx from by omega]

theorem unpack_pack_v210 (p : Planar) (w h : ℕ) (hwf : PlanarWF p w h) :
    unpack_v210 (pack_v210 p w h) w h = p := by
  obtain ⟨hyl, hcbl, hcrl, hyb, hcbb, hcrb⟩ := hwf
  refine Planar.ext ?_ ?_ ?_
  · show (List.range (w * h)).map _ = p.y
    apply List.ext_getElem
    · simp [hyl]
    · intro idx h1 h2
      simp only [List.getElem_map, List.getElem_range]
      have hidx : idx < w * h := by simpa using h1
      rw [unpack_pack_y p w h idx hyb hcbb hcrb hidx]
      exact nthD_eq_getElem p.y idx 0 (by omega)
  · show (List.range (w / 2 * h)).map _ = p.cb
    apply List.ext_getElem
    · simp [hcbl]
    · intro idx h1 h2
      simp only [List.getElem_map, List.getElem_range]
      have hidx : idx < w / 2 * h := by simpa using h1
      rw [unpack_pack_cb p w h idx hyb hcbb hcrb hidx]
      exact nthD_eq_getElem p.cb idx 0 (by omega)
  · show (List.range (w / 2 * h)).map _ = p.cr
    apply List.ext_getElem
    · simp [hcrl]
    · intro idx h1 h2
      simp only [List.getElem_map, List.getElem_range]
      have hidx : idx < w / 2 * h := by simpa using h1
      rw [unpack_pack_cr p w h idx hyb hcbb hcrb hidx]
      exact nthD_eq_getElem p.cr idx 0 (by omega)

/-! ## Lemmas for the YUYV projection round trip -/

theorem concatMap_le16_length (l : List ℕ) :
    (concatMap le16ToBytes l).length = l.length * 2 :=
  concatMap_length le16ToBytes 2 l (fun a _ => rfl)

theorem le16At_concat (l : List ℕ) (k : ℕ) (hk : k < l.length) :
    le16At (concatMap le16ToBytes l) (k * 2) = nthD l k 0 % 65536 := by
  rw [le16At]
  have h0 : nthD (concatMap le16ToBytes l) (k * 2) 0 =
      nthD (le16ToBytes (nthD l k 0)) 0 0 := by
    have h := concatMap_nthD le16ToBytes 2 l (fun a _ => rfl) k 0 0 0 hk (by norm_num)
    simpa using h
  have h1 : nthD (concatMap le16ToBytes l) (k * 2 + 1) 0 =
      nthD (le16ToBytes (nthD l k 0)) 1 0 :=
    concatMap_nthD le16ToBytes 2 l (fun a _ => rfl) k 1 0 0 hk (by norm_num)
  rw [h0, h1]
  show nthD l k 0 % 256 + 256 * (nthD l k 0 / 256 % 256) = nthD l k 0 % 65536
  omega

theorem le16At_append_left (a b : List ℕ) (i : ℕ) (h : i + 2 ≤ a.length) :
    le16At (a ++ b) i = le16At a i := by
  rw [le16At, le16At, nthD_append_left _ _ _ _ (by omega),
    nthD_append_left _ _ _ _ (by omega)]

theorem le16At_append_right (a b : List ℕ) (i : ℕ) :
    le16At (a ++ b) (a.length + i) = le16At b i := by
  have h1 : a.length + i + 1 = a.length + (i + 1) := by omega
  rw [le16At, le16At, h1, nthD_append_right, nthD_append_right]

theorem convert_planarBytes (p : Planar) (w h : ℕ)
    (hyl : p.y.length = w * h) (hcbl : p.cb.length = w / 2 * h)
    (hcrl : p.cr.length = w / 2 * h)
    (hyb : ∀ s ∈ p.y, s < 1024) (hcbb : ∀ s ∈ p.cb, s < 1024)
    (hcrb : ∀ s ∈ p.cr, s < 1024)
    (hw : w % 2 = 0) (r c : ℕ) (hr : r < h) (hc : c < w / 2) :
    nthD (convert_yuv422p10le_to_yuyv10bit (planarToBytes p) w h)
        (r * (w / 2) + c) (0, 0, 0, 0) =
      (nthD p.y (r * w + 2 * c) 0, nthD p.cb (r * (w / 2) + c) 0,
       nthD p.y (r * w + 2 * c + 1) 0, nthD p.cr (r * (w / 2) + c) 0) := by
  have hyB : (concatMap le16ToBytes p.y).length = w * h * 2 := by
    rw [concatMap_le16_length, hyl]
  have hcbB : (concatMap le16ToBytes p.cb).length = w / 2 * h * 2 := by
    rw [concatMap_le16_length, hcbl]
  have hcrB : (concatMap le16ToBytes p.cr).length = w / 2 * h * 2 := by
    rw [concatMap_le16_length, hcrl]
  have hB : w / 2 * h * 2 = w * h := by
    have hq : w / 2 * 2 = w := by omega
    calc w / 2 * h * 2 = w / 2 * 2 * h := by ring
    _ = w * h := by rw [hq]
  have hlen : 4 * (w * h) ≤ (planarToBytes p).length := by
    rw [planarToBytes, List.length_append, List.length_append, hyB, hcbB, hcrB]
    omega
  have hy0 : r * w + 2 * c + 1 < w * h := by
    have h2c : 2 * c + 2 ≤ w := by omega
    calc r * w + 2 * c + 1 < r * w + w := by omega
    _ = (r + 1) * w := by ring
    _ ≤ h * w := Nat.mul_le_mul_right w (by omega)
    _ = w * h := by ring
  have hcbi : r * (w / 2) + c < w / 2 * h := by
    calc r * (w / 2) + c < r * (w / 2) + w / 2 := by omega
    _ = (r + 1) * (w / 2) := by ring
    _ ≤ h * (w / 2) := Nat.mul_le_mul_right (w / 2) (by omega)
    _ = w / 2 * h := by ring
  rw [convert_pair_eq (planarToBytes p) w h r c hw hr hc hlen]
  simp only [Prod.mk.injEq]
  refine ⟨?_, ?_, ?_, ?_⟩
  · rw [planarYat, planarToBytes,
      le16At_append_left _ _ _ (by rw [hyB]; omega),
      le16At_concat p.y (r * w + 2 * c) (by omega)]
    have hv := planar_comp_lt p.y hyb (r * w + 2 * c)
    omega
  · rw [planarCbAt, planarToBytes, ← hyB, le16At_append_right,
      le16At_append_left _ _ _ (by rw [hcbB]; omega),
      le16At_concat p.cb (r * (w / 2) + c) (by omega)]
    have hv := planar_comp_lt p.cb hcbb (r * (w / 2) + c)
    omega
  · rw [planarYat, planarToBytes,
      show r * w + (2 * c + 1) = r * w + 2 * c + 1 from by omega,
      le16At_append_left _ _ _ (by rw [hyB]; omega),
      le16At_concat p.y (r * w + 2 * c + 1) (by omega)]
    have hv := planar_comp_lt p.y hyb (r * w + 2 * c + 1)
    omega
  · rw [planarCrAt, planarToBytes,
      show w * h * 2 + w / 2 * h * 2 + (r * (w / 2) + c) * 2 =
          (concatMap le16ToBytes p.y).length +
            ((concatMap le16ToBytes p.cb).length + (r * (w / 2) + c) * 2) from by
        rw [hyB, hcbB]; ring,
      le16At_append_right, le16At_append_right,
      le16At_concat p.cr (r * (w / 2) + c) (by omega)]
    have hv := planar_comp_lt p.cr hcrb (r * (w / 2) + c)
    omega

theorem unpack_yuyv_convert (p : Planar) (w h : ℕ) (hwf : PlanarWF p w h)
    (hw : w % 2 = 0) :
    unpack_yuyv (convert_yuv422p10le_to_yuyv10bit (planarToBytes p) w h) w h = p := by
  obtain ⟨hyl, hcbl, hcrl, hyb, hcbb, hcrb⟩ := hwf
  refine Planar.ext ?_ ?_ ?_
  · show (List.range (w * h)).map _ = p.y
    apply List.ext_getElem
    · simp [hyl]
    · intro idx h1 h2
      simp only [List.getElem_map, List.getElem_range]
      have hidx : idx < w * h := by simpa using h1
      have hw0 : 0 < w := by
        rcases Nat.eq_zero_or_pos w with h0 | h0
        · subst h0; simp at hidx
        · exact h0
      have hr : idx / w < h := Nat.div_lt_of_lt_mul hidx
      have hi : idx % w < w := Nat.mod_lt idx hw0
      have hc : idx % w / 2 < w / 2 := by omega
      have hrec := convert_planarBytes p w h hyl hcbl hcrl hyb hcbb hcrb hw
        (idx / w) (idx % w / 2) hr hc
      have hdm : idx / w * w + idx % w = idx := Nat.div_add_mod' idx w
      rcases (show idx % w % 2 = 0 ∨ idx % w % 2 = 1 by omega) with hk | hk
      · rw [if_pos hk, hrec]
        show nthD p.y (idx / w * w + 2 * (idx % w / 2)) 0 = p.y[idx]
        rw [show idx / w * w + 2 * (idx % w / 2) = idx from by omega]
        exact nthD_eq_getElem p.y idx 0 (by omega)
      · rw [if_neg (by omega), hrec]
        show nthD p.y (idx / w * w + 2 * (idx % w / 2) + 1) 0 = p.y[idx]
        rw [show idx / w * w + 2 * (idx % w / 2) + 1 = idx from by omega]
        exact nthD_eq_getElem p.y idx 0 (by omega)
  · show (List.range (w / 2 * h)).map _ = p.cb
    apply List.ext_getElem
    · simp [hcbl]
    · intro idx h1 h2
      simp only [List.getElem_map, List.getElem_range]
      have hidx : idx < w / 2 * h := by simpa using h1
      have hw20 : 0 < w / 2 := by
        rcases Nat.eq_zero_or_pos (w / 2) with h0 | h0
        · rw [h0] at hidx; simp at hidx
        · exact h0
      have hr : idx / (w / 2) < h := Nat.div_lt_of_lt_mul hidx
      have hc : idx % (w / 2) < w / 2 := Nat.mod_lt idx hw20
      have hdm : idx / (w / 2) * (w / 2) + idx % (w / 2) = idx :=
        Nat.div_add_mod' idx (w / 2)
      have hrec := convert_planarBytes p w h hyl hcbl hcrl hyb hcbb hcrb hw
        (idx / (w / 2)) (idx % (w / 2)) hr hc
      rw [hdm] at hrec
      rw [hrec]
      show nthD p.cb idx 0 = p.cb[idx]
      exact nthD_eq_getElem p.cb idx 0 (by omega)
  · show (List.range (w / 2 * h)).map _ = p.cr
    apply List.ext_getElem
    · simp [hcrl]
    · intro idx h1 h2
      simp only [List.getElem_map, List.getElem_range]
      have hidx : idx < w / 2 * h := by simpa using h1
      have hw20 : 0 < w / 2 := by
        rcases Nat.eq_zero_or_pos (w / 2) with h0 | h0
        · rw [h0] at hidx; simp at hidx
        · exact h0
      have hr : idx / (w / 2) < h := Nat.div_lt_of_lt_mul hidx
      have hc : idx % (w / 2) < w / 2 := Nat.mod_lt idx hw20
      have hdm : idx / (w / 2) * (w / 2) + idx % (w / 2) = idx :=
        Nat.div_add_mod' idx (w / 2)
      have hrec := convert_planarBytes p w h hyl hcbl hcrl hyb hcbb hcrb hw
        (idx / (w / 2)) (idx % (w / 2)) hr hc
      rw [hdm] at hrec
      rw [hrec]
      show nthD p.cr idx 0 = p.cr[idx]
      exact nthD_eq_getElem p.cr idx 0 (by omega)

/-- C9: for an even-width well-formed planar 4:2:2 frame, packing to
v210, unpacking back to planar, packing that to YUYV and projecting the
YUYV records back to planes reproduces every sample exactly: no lossy
rounding happens in the codec layer. -/
theorem C9_roundtrip (p : Planar) (w h : ℕ) (hw : w % 2 = 0)
    (hwf : PlanarWF p w h) :
    unpack_yuyv
        (convert_yuv422p10le_to_yuyv10bit
          (planarToBytes (unpack_v210 (pack_v210 p w h) w h)) w h) w h = p := by
  rw [unpack_pack_v210 p w h hwf]
  exact unpack_yuyv_convert p w h hwf hw

/-- C9 witness: a 2x1 planar frame with samples Y = 1, 2, Cb = 3, Cr = 4. -/
theorem C9_witness :
    PlanarWF ⟨[1, 2], [3], [4]⟩ 2 1 ∧
      unpack_yuyv
          (convert_yuv422p10le_to_yuyv10bit
            (planarToBytes (unpack_v210 (pack_v210 ⟨[1, 2], [3], [4]⟩ 2 1) 2 1)) 2 1)
          2 1 = ⟨[1, 2], [3], [4]⟩ :=
  ⟨by decide, C9_roundtrip ⟨[1, 2], [3], [4]⟩ 2 1 (by decide) (by decide)⟩
